import Mathlib

/-!
A shallow embedding of the `gen` generator-combinator package.

Values emitted by generators are modelled by `Val`; the two reserved
sentinels `Pending` and `StopIteration` are distinguished constructors.
The `interface\x7b\x7d` arguments of `Some` are modelled by `GoVal`, whose
constructors mirror the type switch performed by `Some` (nil interface,
non-nil `Generator`, the recognised callable shapes returning a single
payload value, a channel, or an opaque payload).  A possibly-nil
`Generator` is an `Option Gen`; the concrete generator implementations
are the constructors of `Gen`.

Effects consumed by `Next` (the cancellation context, timer channels,
`rand.Intn`, `rand.Float64`, the blocking selects of `stagger` and of
the channel source) are supplied by an explicit environment `Env`, one
per `Next` call.  `rand.Float64` is modelled as a rational draw in
`[0, 1)`; `rand.Intn n` is an environment-supplied number reduced modulo
`n`, so it ranges over `[0, n)` exactly as in Go.  A Go `select` with
several ready channels picks one of the ready cases pseudo-randomly; the
boolean `Env.selPick` supplies that choice.  Draining a generator is
`drain`, which consumes one environment per `Next` call and returns
`none` when the supply of environments runs out before the generator
reaches a nil continuation.
-/

set_option maxHeartbeats 1000000

namespace gen

/-- An emitted value: the two sentinels, a nil interface, or an opaque
payload (integers and strings suffice for the payloads the package ever
inspects; payloads are passed through unexamined). -/
inductive Val where
  | nilv
  | pending
  | stopIteration
  | int (n : Int)
  | str (s : String)
deriving DecidableEq

/-- The cancellation carrier: `done` is whether `ctx.Done()` is ready. -/
structure Ctx where
  done : Bool
deriving DecidableEq

/-- Outcome of the blocking select inside `stagger.Next` (no default
case: the call blocks until the context is cancelled or the pacing timer
fires; the environment records which happened first). -/
inductive StagEv where
  | cancelled
  | fired
deriving DecidableEq

/-- Outcome of the blocking select inside the channel-source primitive:
cancellation, the next item, or the source channel being closed. -/
inductive ChanEv where
  | cancelled
  | item (v : Val)
  | closed
deriving DecidableEq

/-- The effect environment for one `Next` call. -/
structure Env where
  ctx : Ctx
  /-- Whether the timer channel with the given identifier is ready. -/
  timerFired : Nat → Bool
  /-- Tie-break used by a Go `select` when several cases are ready:
  `true` picks the `ctx.Done()` case, `false` the timer case. -/
  selPick : Bool
  /-- Source for `rand.Intn`: the draw for bound `n` is `intn n % n`. -/
  intn : Nat → Nat
  /-- The `rand.Float64` draw, a rational in `[0, 1)`. -/
  randF : ℚ
  stagEv : StagEv
  chanEv : ChanEv

/-- The concrete generator implementations of the package.  Fields that
are possibly-nil Generators in Go are `Option Gen`.  `timeLimit` keeps
the identifier of the channel allocated by `time.After`; `stagger` keeps
the current timer channel (if any) and the timer factory. -/
inductive Gen where
  | someV (v : Val)
  | fn0 (f : Unit → Val)
  | fn1 (f : Ctx → Val)
  | cons (head tail : Option Gen)
  | seq (gs : List (Option Gen))
  | mixG (gs : List (Option Gen))
  | mapper (inner : Option Gen) (f : Val → Val)
  | limit (inner : Option Gen) (remaining : Int)
  | repeatG (orig iter : Option Gen)
  | choices (gs : List (Option Gen × ℚ))
  | timeLimit (inner : Option Gen) (ch : Nat)
  | stagger (inner : Option Gen) (ch : Option Nat) (f : Unit → Nat)
  | chanSrc (id : Nat)

/-- An `interface\x7b\x7d` argument as dispatched by `Some`: a nil
interface, a non-nil `Generator`, a niladic callable returning one
value, a callable taking only the context and returning one value, a
channel, or anything else (an opaque payload). -/
inductive GoVal where
  | nil
  | gen (g : Gen)
  | fnv0 (f : Unit → Val)
  | fnv1 (f : Ctx → Val)
  | chan (id : Nat)
  | val (v : Val)

/-- Whether the interface value is nil (the `x == nil` test). -/
def GoVal.isNil : GoVal → Bool
  | .nil => true
  | _ => false

/-- Eligibility of a weighted branch: `g.Prob > 0 && g.Generator != nil`
(`GeneratorWithProb.Valid`). -/
def Valid (b : Option Gen × ℚ) : Bool :=
  decide (0 < b.2) && b.1.isSome

/-- Sum of the weights of a list of branches. -/
def sumW (l : List (Option Gen × ℚ)) : ℚ :=
  (l.map fun b => b.2).sum

/-- `Map(f, g)`: nil inner generator degrades to nil, otherwise wrap in
a `mapper`. -/
def Map (f : Val → Val) (g : Option Gen) : Option Gen :=
  match g with
  | none => none
  | some g0 => some (.mapper (some g0) f)

/-- `Limit(n, g)`: nil source or a non-positive budget degrade to nil. -/
def Limit (n : Int) (g : Option Gen) : Option Gen :=
  match g with
  | none => none
  | some g0 => if n ≤ 0 then none else some (.limit (some g0) n)

theorem sizeOf_lt_of_mem_filterMap_id {α} [SizeOf α] {gs : List (Option α)} {g : α}
    (h : g ∈ gs.filterMap id) : sizeOf g < sizeOf gs := by
  rcases List.mem_filterMap.mp h with ⟨o, ho, hid⟩
  cases o with
  | none => simp [id] at hid
  | some g0 =>
      have hg : g0 = g := by simpa [id] using hid
      subst hg
      have hlt := List.sizeOf_lt_of_mem ho
      simp only [Option.some.sizeOf_spec] at hlt
      omega

theorem sizeOf_filterMap_id_le {α} [SizeOf α] (gs : List (Option α)) :
    sizeOf (gs.filterMap id) ≤ sizeOf gs := by
  induction gs with
  | nil => simp
  | cons o rest ih =>
      cases o with
      | none =>
          have h1 : List.filterMap id (none :: rest) = List.filterMap id rest := by
            simp [List.filterMap_cons]
          rw [h1]
          simp only [List.cons.sizeOf_spec, Option.none.sizeOf_spec]
          omega
      | some g0 =>
          have h1 : List.filterMap id (some g0 :: rest) = g0 :: List.filterMap id rest := by
            simp [List.filterMap_cons]
          rw [h1]
          simp only [List.cons.sizeOf_spec, Option.some.sizeOf_spec]
          omega

mutual

/-- One `Next` call.  Each constructor case is a direct transcription of
the corresponding `Next` method of the package; `fn0`/`fn1` delegate in
the source through `Cons(Some(g()), g).Next(ctx)`, whose one-step
unfolding (the head is a plain `some` literal) is inlined here and
proved equal to the delegated form in `fn0_delegation`/`fn1_delegation`
below.  `seq.Next` likewise delegates through `Cons(g, tail).Next(ctx)`
with a non-nil head; the one cons step is inlined in `seqNext`. -/
def next (g : Gen) (env : Env) : Val × Option Gen :=
  match g with
  | .someV v => (v, none)
  | .fn0 f => (f (), some (.fn0 f))
  | .fn1 f => (f env.ctx, some (.fn1 f))
  | .cons head tail =>
      match head with
      | none =>
          match tail with
          | none => (.stopIteration, none)
          | some tg => next tg env
      | some hg =>
          let r := next hg env
          match r.2 with
          | none => (r.1, tail)
          | some ng => (r.1, some (.cons (some ng) tail))
  | .seq gs => seqNext gs env
  | .mixG gs =>
      match halts : gs.filterMap id with
      | [] => (.stopIteration, none)
      | a :: rest =>
          let i := env.intn (a :: rest).length % (a :: rest).length
          let sel := (a :: rest).get ⟨i, Nat.mod_lt _ (Nat.succ_pos _)⟩
          let r := next sel env
          if rest.isEmpty && r.2.isNone then (r.1, none)
          else (r.1, some (.mixG (((a :: rest).map some).set i r.2)))
  | .mapper inner f =>
      match inner with
      | none => (.stopIteration, none)
      | some g0 =>
          let r := next g0 env
          (f r.1, Map f r.2)
  | .limit inner n =>
      if n ≤ 0 then (.stopIteration, none)
      else
        match inner with
        | none => (.stopIteration, none)
        | some g0 =>
            let r := next g0 env
            (r.1, Limit (n - 1) r.2)
  | .repeatG orig iter =>
      match orig with
      | none => (.stopIteration, none)
      | some og =>
          -- Go: if g.iter == nil, the iterator resets to g.orig before advancing
          match iter with
          | none =>
              let r := next og env
              (r.1, some (.repeatG (some og) r.2))
          | some ig =>
              let r := next ig env
              (r.1, some (.repeatG (some og) r.2))
  | .choices gs =>
      let valids := gs.filter Valid
      if valids.isEmpty then (.stopIteration, none)
      else
        let s := sumW valids
        let t := env.randF * s
        let res := choicesLoop env gs t false .nilv
        if res.2.isEmpty then (res.1, none)
        else (res.1, some (.choices res.2))
  | .timeLimit inner ch =>
      match inner with
      | none => (.stopIteration, none)
      | some g0 =>
          let done := env.ctx.done
          let fired := env.timerFired ch
          if done && fired then
            if env.selPick then (.pending, some (.timeLimit inner ch))
            else (.stopIteration, none)
          else if done then (.pending, some (.timeLimit inner ch))
          else if fired then (.stopIteration, none)
          else
            let r := next g0 env
            (r.1, match r.2 with
                  | none => none
                  | some ng => some (.timeLimit (some ng) ch))
  | .stagger inner ch f =>
      match inner with
      | none => (.stopIteration, none)
      | some g0 =>
          let ch2 := match ch with
            | none => f ()
            | some c => c
          match env.stagEv with
          | .cancelled => (.pending, some (.stagger inner (some ch2) f))
          | .fired =>
              let r := next g0 env
              (r.1, match r.2 with
                    | none => none
                    | some ng => some (.stagger (some ng) (some (f ())) f))
  | .chanSrc id =>
      -- Modelled from the spec: the channel arm of `Some` (and the
      -- channel-source generator it builds) is not under src/; only the
      -- tests exercise it.  Per the spec, `Next` waits for cancellation
      -- (Pending, same generator), the next item (item, same
      -- generator), or the source being closed (StopIteration, nil).
      match env.chanEv with
      | .cancelled => (.pending, some (.chanSrc id))
      | .item v => (v, some (.chanSrc id))
      | .closed => (.stopIteration, none)
termination_by sizeOf g
decreasing_by
all_goals first
  | decreasing_tactic
  | (simp_wf
     have hmem := List.get_mem (a :: rest)
       (env.intn (a :: rest).length % (a :: rest).length)
       (Nat.mod_lt _ (Nat.succ_pos _))
     simp only [List.get_eq_getElem, List.length_cons] at hmem
     have hlt := List.sizeOf_lt_of_mem hmem
     have hle := sizeOf_filterMap_id_le gs
     rw [halts] at hle
     simp only [List.cons.sizeOf_spec] at hlt hle
     omega)

/-- The body of `seq.Next`: skip nil entries; at the first non-nil entry
`g`, advance `g` directly when it is the last entry, otherwise advance
`Cons(g, tail)` (one cons step inlined, head known non-nil). -/
def seqNext (gs : List (Option Gen)) (env : Env) : Val × Option Gen :=
  match gs with
  | [] => (.stopIteration, none)
  | none :: rest => seqNext rest env
  | some g :: rest =>
      if rest.isEmpty then next g env
      else
        let r := next g env
        match r.2 with
        | none => (r.1, some (.seq rest))
        | some ng => (r.1, some (.cons (some ng) (some (.seq rest))))
termination_by sizeOf gs

/-- The selection loop of `Choices.Next`: invalid branches are skipped
(and dropped from the rebuilt collection); for each valid branch the
running draw `t` is decreased by its weight, the first branch taking `t`
below zero (while nothing was selected yet) is advanced once and its
continuation, if non-nil, replaces it in place with the same weight. -/
def choicesLoop (env : Env) (gs : List (Option Gen × ℚ)) (t : ℚ) (ok : Bool)
    (x : Val) : Val × List (Option Gen × ℚ) :=
  match gs with
  | [] => (x, [])
  | (none, _) :: rest => choicesLoop env rest t ok x
  | (some bg, p) :: rest =>
      if 0 < p then
        let t2 := t - p
        if ok = false ∧ t2 < 0 then
          let r := next bg env
          let res := choicesLoop env rest t2 true r.1
          (res.1, match r.2 with
                  | none => res.2
                  | some ng => (some ng, p) :: res.2)
        else
          let res := choicesLoop env rest t2 ok x
          (res.1, (some bg, p) :: res.2)
      else choicesLoop env rest t ok x
termination_by sizeOf gs

end

/-- Drain: repeated `Next` calls until a nil continuation, consuming one
environment per call; `none` when the environments run out first. -/
def drain : List Env → Option Gen → Option (List Val)
  | _, none => some []
  | [], some _ => none
  | e :: es, some g => (drain es (next g e).2).map fun xs => (next g e).1 :: xs

/-- The `Some` constructor: a non-nil `Generator` is returned as is; the
recognised callable shapes build the self-referential `fn0`/`fn1`
wrappers; a channel builds the channel source (that arm is modelled from
the spec, see `Gen.chanSrc`); everything else, including a nil
interface, is an opaque single-shot literal. -/
def Some : GoVal → Gen
  | .gen g => g
  | .fnv0 f => .fn0 f
  | .fnv1 f => .fn1 f
  | .chan id => .chanSrc id
  | .val v => .someV v
  | .nil => .someV .nilv

/-- `WrapAllNonNil`: nil for an empty argument list; otherwise wrap the
non-nil arguments with `Some` and return nil when none remain. -/
def WrapAllNonNil (xs : List GoVal) : Option (List Gen) :=
  if xs.isEmpty then none
  else
    let gs := (xs.filter fun x => !x.isNil).map Some
    if gs.isEmpty then none else some gs

/-- The `Cons` smart constructor: a nil head yields the tail, a nil tail
yields the head. -/
def Cons (head tail : Option Gen) : Option Gen :=
  match head with
  | none => tail
  | some _ =>
      match tail with
      | none => head
      | some _ => some (.cons head tail)

/-- `Seq`: wrap the non-nil operands; nil when none remain. -/
def Seq (xs : List GoVal) : Option Gen :=
  match WrapAllNonNil xs with
  | none => none
  | some gs => some (.seq (gs.map some))

/-- `Mix`: wrap the non-nil operands; nil when none remain. -/
def Mix (xs : List GoVal) : Option Gen :=
  match WrapAllNonNil xs with
  | none => none
  | some gs => some (.mixG (gs.map some))

/-- `Repeat`: nil source degrades to nil, otherwise keep the original
next to the running iterator. -/
def Repeat (g : Option Gen) : Option Gen :=
  match g with
  | none => none
  | some g0 => some (.repeatG (some g0) (some g0))

/-- `TimeLimit(d, g)`: nil source or non-positive duration degrade to
nil; `ch` is the identifier of the channel allocated by `time.After(d)`. -/
def TimeLimit (d : Int) (g : Option Gen) (ch : Nat) : Option Gen :=
  match g with
  | none => none
  | some g0 => if d ≤ 0 then none else some (.timeLimit (some g0) ch)

/-- `StaggerFn(f, g)`: nil source degrades to nil, a nil factory passes
the source through unpaced. -/
def StaggerFn (f : Option (Unit → Nat)) (g : Option Gen) : Option Gen :=
  match g with
  | none => none
  | some g0 =>
      match f with
      | none => g
      | some f0 => some (.stagger (some g0) none f0)

/-- `Stagger(d, g)`: a non-positive duration passes the source through
unchanged; otherwise pace through `StaggerFn` with a factory producing
fresh `time.After` channels (modelled opaquely). -/
def Stagger (d : Int) (g : Option Gen) : Option Gen :=
  if d ≤ 0 then g
  else StaggerFn (some fun _ => 0) g


theorem next_someV (v : Val) (env : Env) : next (.someV v) env = (v, none) := by
  simp [next]

theorem next_fn0 (f : Unit → Val) (env : Env) :
    next (.fn0 f) env = (f (), some (.fn0 f)) := by
  simp [next]

theorem next_fn1 (f : Ctx → Val) (env : Env) :
    next (.fn1 f) env = (f env.ctx, some (.fn1 f)) := by
  simp [next]

theorem next_cons_none_none (env : Env) :
    next (.cons none none) env = (.stopIteration, none) := by
  simp [next]

theorem next_cons_none_some (t : Gen) (env : Env) :
    next (.cons none (some t)) env = next t env := by
  simp [next]

theorem next_cons_some (h : Gen) (t : Option Gen) (env : Env) :
    next (.cons (some h) t) env =
      ((next h env).1,
       match (next h env).2 with
       | none => t
       | some ng => some (.cons (some ng) t)) := by
  simp only [next]
  rcases hng : (next h env).2 with _ | ng <;> simp [hng]

/-- The inlined `fn0` case agrees with the delegation performed by the
source, `Cons(Some(g()), g).Next(ctx)`. -/
theorem fn0_delegation (f : Unit → Val) (env : Env) :
    next (.fn0 f) env = next (.cons (some (.someV (f ()))) (some (.fn0 f))) env := by
  rw [next_fn0, next_cons_some, next_someV]

/-- The inlined `fn1` case agrees with the delegation performed by the
source, `Cons(Some(g(ctx)), g).Next(ctx)`. -/
theorem fn1_delegation (f : Ctx → Val) (env : Env) :
    next (.fn1 f) env = next (.cons (some (.someV (f env.ctx))) (some (.fn1 f))) env := by
  rw [next_fn1, next_cons_some, next_someV]

theorem drain_none (es : List Env) : drain es none = some [] := by
  cases es <;> rfl

theorem drain_nil_some (g : Gen) : drain [] (some g) = none := rfl

theorem drain_cons_some (e : Env) (es : List Env) (g : Gen) :
    drain (e :: es) (some g) =
      (drain es (next g e).2).map fun xs => (next g e).1 :: xs := rfl

/-- Associativity of the drained sequences, main step: the fully
non-nil case, by induction over the supply of environments. -/
theorem drain_cons_assoc_aux (es : List Env) : ∀ a b c : Gen,
    drain es (some (.cons (some (.cons (some a) (some b))) (some c))) =
      drain es (some (.cons (some a) (some (.cons (some b) (some c))))) := by
  induction es with
  | nil => intro a b c; rfl
  | cons e es ih =>
      intro a b c
      rw [drain_cons_some, drain_cons_some,
        next_cons_some (Gen.cons (some a) (some b)) (some c) e,
        next_cons_some a (some b) e,
        next_cons_some a (some (Gen.cons (some b) (some c))) e]
      rcases hna : (next a e).2 with _ | a2
      · simp [hna]
      · simp only [hna]
        rw [ih a2 b c]


/-- Claim C1: Cons concatenation is associative: for every generators A,
B, C, draining Cons(Cons(A,B),C) by repeated Next calls yields exactly
the same sequence of values as draining Cons(A,Cons(B,C)) (stated for
every supply of per-step environments, hence in particular for every
finite drain that reaches a nil continuation). -/
theorem cons_assoc_drain (es : List Env) (a b c : Option Gen) :
    drain es (Cons (Cons a b) c) = drain es (Cons a (Cons b c)) := by
  cases a with
  | none => cases b <;> cases c <;> simp [Cons]
  | some a0 =>
      cases b with
      | none => cases c <;> simp [Cons]
      | some b0 =>
          cases c with
          | none => simp [Cons]
          | some c0 => exact drain_cons_assoc_aux es a0 b0 c0

theorem wrapAll_none (xs : List GoVal) (h : ∀ x ∈ xs, x.isNil = true) :
    WrapAllNonNil xs = none := by
  unfold WrapAllNonNil
  rcases xs with _ | ⟨x, rest⟩
  · rfl
  · have hfilter : ((x :: rest).filter fun y => !y.isNil) = [] := by
      apply List.filter_eq_nil_iff.mpr
      intro a ha
      simp [h a ha]
    simp [hfilter]

/-- Claim C3 (amended): Limit with a non-positive budget or nil source,
TimeLimit with a non-positive duration or nil source, Seq and Mix with
no non-nil operands, and Repeat of nil all degrade to the nil generator;
Stagger with a non-positive duration, however, returns its source
unchanged instead of nil (so it is nil exactly when the source is). -/
theorem degenerate_args_spec :
    (∀ (n : Int) (g : Option Gen), n ≤ 0 ∨ g = none → Limit n g = none)
    ∧ (∀ (d : Int) (g : Option Gen) (ch : Nat), d ≤ 0 ∨ g = none → TimeLimit d g ch = none)
    ∧ (∀ (d : Int) (g : Option Gen), d ≤ 0 → Stagger d g = g)
    ∧ (∀ xs : List GoVal, (∀ x ∈ xs, x.isNil = true) → Seq xs = none)
    ∧ (∀ xs : List GoVal, (∀ x ∈ xs, x.isNil = true) → Mix xs = none)
    ∧ Repeat none = none := by
  refine ⟨?_, ?_, ?_, ?_, ?_, rfl⟩
  · rintro n g (hn | rfl)
    · cases g with
      | none => rfl
      | some g0 => simp [Limit, hn]
    · rfl
  · rintro d g ch (hd | rfl)
    · cases g with
      | none => rfl
      | some g0 => simp [TimeLimit, hd]
    · rfl
  · intro d g hd
    simp [Stagger, hd]
  · intro xs h
    simp [Seq, wrapAll_none xs h]
  · intro xs h
    simp [Mix, wrapAll_none xs h]

/-- Claim C3, counterexample to the sentence as stated: Stagger with a
non-positive duration does not return nil on a non-nil source. -/
theorem stagger_degenerate_cex :
    Stagger 0 (some (.someV (.int 42))) ≠ none := by
  simp [Stagger, StaggerFn]

/-- Claim C3, witness: each degenerate-argument clause evaluated at a
concrete input. -/
theorem degenerate_args_spec_witness :
    Limit 0 (some (.someV (.int 1))) = none
    ∧ TimeLimit (-1) (some (.someV (.int 1))) 0 = none
    ∧ Stagger (-2) (some (.someV (.int 3))) = some (.someV (.int 3))
    ∧ Seq [.nil, .nil] = none
    ∧ Mix [] = none
    ∧ Repeat none = none :=
  ⟨degenerate_args_spec.1 0 _ (Or.inl (by norm_num)),
   degenerate_args_spec.2.1 (-1) _ 0 (Or.inl (by norm_num)),
   degenerate_args_spec.2.2.1 (-2) _ (by norm_num),
   degenerate_args_spec.2.2.2.1 [.nil, .nil] (by simp [GoVal.isNil]),
   degenerate_args_spec.2.2.2.2.1 [] (by simp),
   degenerate_args_spec.2.2.2.2.2⟩

/-- Claim C6: a niladic callable (or a callable accepting only the
cancellation context) returning one value is wrapped as the
self-referential fn0/fn1 generator; every Next call applies the callable
once, returns its result, and yields the very same generator value as
its own continuation. -/
theorem some_fn_fixed_point :
    (∀ f : Unit → Val, Some (.fnv0 f) = Gen.fn0 f)
    ∧ (∀ f : Ctx → Val, Some (.fnv1 f) = Gen.fn1 f)
    ∧ (∀ (f : Unit → Val) (env : Env), next (Gen.fn0 f) env = (f (), some (Gen.fn0 f)))
    ∧ (∀ (f : Ctx → Val) (env : Env), next (Gen.fn1 f) env = (f env.ctx, some (Gen.fn1 f))) :=
  ⟨fun _ => rfl, fun _ => rfl, fun f env => next_fn0 f env, fun f env => next_fn1 f env⟩

/-- Claim C10: Some is the identity on values that are already
Generators, wrapping is idempotent, and Seq and Mix embed Generator
operands as-is through WrapAllNonNil. -/
theorem some_identity_on_generators :
    (∀ g : Gen, Some (.gen g) = g)
    ∧ (∀ x : GoVal, Some (.gen (Some x)) = Some x)
    ∧ (∀ a b : Gen, WrapAllNonNil [.gen a, .gen b] = some [a, b])
    ∧ (∀ a b : Gen, Seq [.gen a, .gen b] = some (.seq [some a, some b]))
    ∧ (∀ a b : Gen, Mix [.gen a, .gen b] = some (.mixG [some a, some b])) := by
  refine ⟨fun g => rfl, fun x => rfl, ?_, ?_, ?_⟩ <;> intro a b <;> rfl

/-- Environment with the cancellation signal fired and the deadline
channel not ready. -/
def envCancel : Env :=
  { ctx := ⟨true⟩, timerFired := fun _ => false, selPick := false,
    intn := fun _ => 0, randF := 0, stagEv := .fired, chanEv := .closed }

/-- Environment with both the cancellation signal and the deadline
channel ready, with the select picking the deadline case. -/
def envBoth : Env :=
  { ctx := ⟨true⟩, timerFired := fun _ => true, selPick := false,
    intn := fun _ => 0, randF := 0, stagEv := .fired, chanEv := .closed }

/-- Quiet environment: nothing fired, draws are zero, channel closed. -/
def env0 : Env :=
  { ctx := ⟨false⟩, timerFired := fun _ => false, selPick := false,
    intn := fun _ => 0, randF := 0, stagEv := .fired, chanEv := .closed }

/-- Claim C2 (amended): a timeLimit Next call returns (Pending,
unchanged generator) when only the cancellation signal has fired,
(StopIteration, nil) when only the deadline has elapsed, one of those
two results (chosen by the runtime select) when both are ready, and
otherwise delegates to the inner generator carrying the same deadline
channel forward in the continuation. -/
theorem timeLimit_next_spec (g0 : Gen) (ch : Nat) (env : Env) :
    (env.ctx.done = true → env.timerFired ch = false →
       next (.timeLimit (some g0) ch) env = (.pending, some (.timeLimit (some g0) ch)))
    ∧ (env.ctx.done = false → env.timerFired ch = true →
       next (.timeLimit (some g0) ch) env = (.stopIteration, none))
    ∧ (env.ctx.done = true → env.timerFired ch = true →
       next (.timeLimit (some g0) ch) env = (.pending, some (.timeLimit (some g0) ch))
       ∨ next (.timeLimit (some g0) ch) env = (.stopIteration, none))
    ∧ (env.ctx.done = false → env.timerFired ch = false →
       next (.timeLimit (some g0) ch) env =
         ((next g0 env).1,
          match (next g0 env).2 with
          | none => none
          | some ng => some (.timeLimit (some ng) ch))) := by
  refine ⟨?_, ?_, ?_, ?_⟩
  · intro h1 h2
    simp [next, h1, h2]
  · intro h1 h2
    simp [next, h1, h2]
  · intro h1 h2
    cases hp : env.selPick
    · right
      simp [next, h1, h2, hp]
    · left
      simp [next, h1, h2, hp]
  · intro h1 h2
    simp [next, h1, h2]

/-- Claim C2, counterexample to the sentence as stated: with both the
cancellation signal and the deadline channel ready, the select may take
the deadline case, so the result is not always (Pending, unchanged). -/
theorem timeLimit_priority_cex :
    next (.timeLimit (some (.someV (.int 1))) 0) envBoth
      ≠ (.pending, some (.timeLimit (some (.someV (.int 1))) 0)) := by
  simp [next, envBoth]

/-- Claim C2, witness: a pre-cancelled context with the deadline not yet
elapsed yields (Pending, unchanged generator). -/
theorem timeLimit_next_spec_witness :
    next (.timeLimit (some (.someV (.int 5))) 0) envCancel
      = (.pending, some (.timeLimit (some (.someV (.int 5))) 0)) :=
  (timeLimit_next_spec (.someV (.int 5)) 0 envCancel).1 rfl rfl

/-- Claim C9: a Next call on a non-nil combinator with nothing left to
produce — a cons with nil head and tail, a Choices collection with no
eligible branch, a limit with an exhausted budget or nil inner
generator, a mix whose branches are all nil — returns the StopIteration
sentinel paired with a nil continuation. -/
theorem exhausted_next_spec :
    (∀ env : Env, next (.cons none none) env = (.stopIteration, none))
    ∧ (∀ (env : Env) (gs : List (Option Gen × ℚ)),
        (∀ b ∈ gs, Valid b = false) → next (.choices gs) env = (.stopIteration, none))
    ∧ (∀ (env : Env) (inner : Option Gen) (n : Int),
        n ≤ 0 ∨ inner = none → next (.limit inner n) env = (.stopIteration, none))
    ∧ (∀ (env : Env) (gs : List (Option Gen)),
        (∀ g ∈ gs, g = none) → next (.mixG gs) env = (.stopIteration, none)) := by
  refine ⟨?_, ?_, ?_, ?_⟩
  · intro env
    exact next_cons_none_none env
  · intro env gs h
    have hfilter : gs.filter Valid = [] := by
      apply List.filter_eq_nil_iff.mpr
      intro b hb
      simp [h b hb]
    simp [next, hfilter]
  · rintro env inner n (hn | rfl)
    · cases inner with
      | none => simp [next, hn]
      | some g0 => simp [next, hn]
    · rcases le_or_lt n 0 with hn | hn
      · simp [next, hn]
      · simp [next, not_le.mpr hn]
  · intro env gs h
    have hfm : gs.filterMap id = [] := by
      apply List.filterMap_eq_nil_iff.mpr
      intro o ho
      simp [h o ho]
    simp only [next]
    split
    · rfl
    · rename_i a rest halts2
      rw [hfm] at halts2
      cases halts2

/-- Claim C9, witness: each exhausted-combinator clause evaluated at a
concrete input. -/
theorem exhausted_next_spec_witness :
    next (.cons none none) env0 = (.stopIteration, none)
    ∧ next (.choices [(none, 1), (some (.someV (.int 1)), 0)]) env0 = (.stopIteration, none)
    ∧ next (.limit none 5) env0 = (.stopIteration, none)
    ∧ next (.mixG [none, none]) env0 = (.stopIteration, none) :=
  ⟨exhausted_next_spec.1 env0,
   exhausted_next_spec.2.1 env0 _ (by simp [Valid]),
   exhausted_next_spec.2.2.1 env0 none 5 (Or.inr rfl),
   exhausted_next_spec.2.2.2 env0 _ (by simp)⟩

/-- Claim C7: draining Limit(n, g) emits exactly the first
min(n, length of g) values of g in order: whenever g drains completely
to the value list xs under a given supply of environments, Limit(n, g)
drains completely to the first n values of xs under the same supply
(truncation, never padding). -/
theorem limit_drain_take (es : List Env) :
    ∀ (g : Option Gen) (xs : List Val) (n : Int),
      drain es g = some xs → drain es (Limit n g) = some (xs.take n.toNat) := by
  induction es with
  | nil =>
      intro g xs n h
      cases g with
      | none =>
          rw [drain_none] at h
          cases h
          cases n with
          | ofNat m => simp [Limit, drain_none]
          | negSucc m => simp [Limit, drain_none]
      | some g0 => cases h
  | cons e es ih =>
      intro g xs n h
      cases g with
      | none =>
          rw [drain_none] at h
          cases h
          simp [Limit, drain_none]
      | some g0 =>
          rcases le_or_lt n 0 with hn | hn
          · have hL : Limit n (some g0) = none := by simp [Limit, hn]
            have hnt : n.toNat = 0 := by omega
            rw [hL, drain_none, hnt]
            simp
          · have hL : Limit n (some g0) = some (.limit (some g0) n) := by
              simp [Limit, not_le.mpr hn]
            have hnext : next (.limit (some g0) n) e
                = ((next g0 e).1, Limit (n - 1) (next g0 e).2) := by
              simp [next, not_le.mpr hn]
            rw [hL, drain_cons_some, hnext]
            rw [drain_cons_some] at h
            rcases hd : drain es (next g0 e).2 with _ | xs2
            · rw [hd] at h
              cases h
            · rw [hd] at h
              simp only [Option.map] at h
              cases h
              rw [ih (next g0 e).2 xs2 (n - 1) hd]
              have hnt : n.toNat = (n - 1).toNat + 1 := by omega
              rw [hnt]
              simp [List.take_succ_cons]

set_option maxRecDepth 8192 in
/-- Claim C7, witness: limiting a two-element sequence to three emits
just the two elements; the budget never pads. -/
theorem limit_drain_take_witness :
    drain [env0, env0, env0]
        (Limit 3 (some (.seq [some (.someV (.int 1)), some (.someV (.int 2))])))
      = some [.int 1, .int 2] := by
  have h := limit_drain_take [env0, env0, env0]
    (some (.seq [some (.someV (.int 1)), some (.someV (.int 2))]))
    [.int 1, .int 2] 3 (by simp [drain, next, seqNext])
  simpa using h

/-- The doubling function of the spec example: doubles integer payloads
and returns Pending on anything else (supplied by the caller, not by the
combinator). -/
def double : Val → Val
  | .int n => .int (2 * n)
  | _ => .pending

set_option maxRecDepth 8192 in
/-- Claim C8: Map applies f to every value produced by g, sentinels
included, with no special-casing by the combinator itself (each step
emits exactly f of the inner value); Map(f, none) is none; and the
doubling example over seq(1, "oops", 3) drains to [2, Pending, 6]. -/
theorem map_spec :
    (∀ f : Val → Val, Map f none = none)
    ∧ (∀ (f : Val → Val) (g : Gen) (env : Env),
        next (.mapper (some g) f) env = (f (next g env).1, Map f (next g env).2))
    ∧ (∀ (es : List Env) (f : Val → Val) (g : Option Gen),
        drain es (Map f g) = (drain es g).map fun xs => xs.map f)
    ∧ drain [env0, env0, env0]
        (Map double (Seq [.val (.int 1), .val (.str "oops"), .val (.int 3)]))
        = some [.int 2, .pending, .int 6] := by
  have hnext : ∀ (f : Val → Val) (g : Gen) (env : Env),
      next (.mapper (some g) f) env = (f (next g env).1, Map f (next g env).2) := by
    intro f g env
    simp [next]
  have hdrain : ∀ (es : List Env) (f : Val → Val) (g : Option Gen),
      drain es (Map f g) = (drain es g).map fun xs => xs.map f := by
    intro es
    induction es with
    | nil =>
        intro f g
        cases g with
        | none => simp [Map, drain_none]
        | some g0 => simp [Map, drain_nil_some]
    | cons e es ih =>
        intro f g
        cases g with
        | none => simp [Map, drain_none]
        | some g0 =>
            rw [show Map f (some g0) = some (.mapper (some g0) f) from rfl]
            rw [drain_cons_some, hnext, drain_cons_some, ih f (next g0 e).2]
            rcases hd : drain es (next g0 e).2 with _ | xs2 <;> simp [hd]
  refine ⟨fun f => rfl, hnext, hdrain, ?_⟩
  rw [hdrain]
  simp [drain, next, seqNext, Seq, WrapAllNonNil, GoVal.isNil, Some, double]

/-- Environment in which the channel source has an item available. -/
def envItem : Env :=
  { ctx := ⟨false⟩, timerFired := fun _ => false, selPick := false,
    intn := fun _ => 0, randF := 0, stagEv := .fired, chanEv := .item (.int 7) }

/-- Claim C5: the channel-backed source (modelled from the spec: the
channel arm of Some and its generator are not under src/): each Next
call returns (Pending, the same generator) when the cancellation signal
wins the wait, (item, the same generator) when the next item arrives,
and the StopIteration sentinel with a nil continuation once the source
channel is closed. -/
theorem chan_source_spec (id : Nat) (env : Env) :
    (Some (.chan id) = Gen.chanSrc id)
    ∧ (env.chanEv = .cancelled →
        next (.chanSrc id) env = (.pending, some (.chanSrc id)))
    ∧ (∀ v : Val, env.chanEv = .item v →
        next (.chanSrc id) env = (v, some (.chanSrc id)))
    ∧ (env.chanEv = .closed →
        next (.chanSrc id) env = (.stopIteration, none)) := by
  refine ⟨rfl, ?_, ?_, ?_⟩
  · intro h
    simp [next, h]
  · intro v h
    simp [next, h]
  · intro h
    simp [next, h]

/-- Claim C5, witness: the three channel events evaluated concretely. -/
theorem chan_source_spec_witness :
    next (.chanSrc 0) envItem = (.int 7, some (.chanSrc 0))
    ∧ next (.chanSrc 0) env0 = (.stopIteration, none) :=
  ⟨(chan_source_spec 0 envItem).2.2.1 (.int 7) rfl,
   (chan_source_spec 0 env0).2.2.2 rfl⟩

/-- Rebuild of the branch collection after a step: nil when empty. -/
def mkChoices (l : List (Option Gen × ℚ)) : Option Gen :=
  if l.isEmpty then none else some (.choices l)

theorem sumW_nil : sumW [] = 0 := rfl

theorem sumW_cons (b : Option Gen × ℚ) (rest : List (Option Gen × ℚ)) :
    sumW (b :: rest) = b.2 + sumW rest := by
  simp [sumW]

theorem sumW_append (l1 l2 : List (Option Gen × ℚ)) :
    sumW (l1 ++ l2) = sumW l1 + sumW l2 := by
  simp [sumW]

theorem valid_elim {b : Option Gen × ℚ} (h : Valid b = true) :
    0 < b.2 ∧ b.1.isSome = true := by
  simpa [Valid] using h

theorem sumW_nonneg (bs : List (Option Gen × ℚ))
    (h : ∀ b ∈ bs, Valid b = true) : 0 ≤ sumW bs := by
  induction bs with
  | nil => simp [sumW_nil]
  | cons b rest ih =>
      rw [sumW_cons]
      have hb := (valid_elim (h b (List.mem_cons_self b rest))).1
      have hr := ih fun x hx => h x (List.mem_cons_of_mem b hx)
      linarith

theorem sumW_pos (bs : List (Option Gen × ℚ))
    (h : ∀ b ∈ bs, Valid b = true) (hne : bs ≠ []) : 0 < sumW bs := by
  cases bs with
  | nil => cases hne rfl
  | cons b rest =>
      rw [sumW_cons]
      have hb := (valid_elim (h b (List.mem_cons_self b rest))).1
      have hr := sumW_nonneg rest fun x hx => h x (List.mem_cons_of_mem b hx)
      linarith

/-- The selection loop ignores invalid branches entirely: it computes
the same result on the collection filtered to its valid branches. -/
theorem choicesLoop_filter (env : Env) (gs : List (Option Gen × ℚ)) :
    ∀ (t : ℚ) (ok : Bool) (x : Val),
      choicesLoop env gs t ok x = choicesLoop env (gs.filter Valid) t ok x := by
  induction gs with
  | nil => intro t ok x; rfl
  | cons b rest ih =>
      intro t ok x
      rcases b with ⟨bo, p⟩
      cases bo with
      | none =>
          have hv : Valid (none, p) = false := by simp [Valid]
          simp [choicesLoop, List.filter_cons, hv, ih]
      | some bg =>
          rcases lt_or_le 0 p with hp | hp
          · have hv : Valid (some bg, p) = true := by simp [Valid, hp]
            simp [choicesLoop, List.filter_cons, hv, hp, ih]
          · have hv : Valid (some bg, p) = false := by
              simp [Valid, not_lt.mpr hp]
            simp [choicesLoop, List.filter_cons, hv, not_lt.mpr hp, ih]

/-- Once a branch has been selected, the rest of the loop returns the
remaining valid branches unchanged. -/
theorem choicesLoop_ok (env : Env) (bs : List (Option Gen × ℚ)) :
    ∀ (t : ℚ) (x : Val), (∀ b ∈ bs, Valid b = true) →
      choicesLoop env bs t true x = (x, bs) := by
  induction bs with
  | nil => intro t x _; simp [choicesLoop]
  | cons b rest ih =>
      intro t x h
      rcases b with ⟨bo, p⟩
      cases bo with
      | none =>
          have := (valid_elim (h (none, p) (List.mem_cons_self _ _))).2
          simp at this
      | some bg =>
          have hp := (valid_elim (h (some bg, p) (List.mem_cons_self _ _))).1
          have hrest := ih (t - p) x fun y hy => h y (List.mem_cons_of_mem _ hy)
          simp [choicesLoop, hp, hrest]

/-- On an all-valid collection with a draw `0 ≤ t < sumW bs`, the loop
selects exactly the first branch whose cumulative weight strictly
exceeds `t`, advances it once, and rebuilds the collection with that
branch replaced in place by its continuation with the same weight, or
dropped when the continuation is nil. -/
theorem choicesLoop_select (env : Env) (bs : List (Option Gen × ℚ)) :
    ∀ (t : ℚ) (x : Val), (∀ b ∈ bs, Valid b = true) → 0 ≤ t → t < sumW bs →
      ∃ pre bg w post,
        bs = pre ++ (some bg, w) :: post ∧ 0 < w ∧
        sumW pre ≤ t ∧ t < sumW pre + w ∧
        choicesLoop env bs t false x =
          ((next bg env).1,
           pre ++ (match (next bg env).2 with
                   | none => []
                   | some ng => [(some ng, w)]) ++ post) := by
  induction bs with
  | nil =>
      intro t x h h0 h1
      rw [sumW_nil] at h1
      linarith
  | cons b rest ih =>
      intro t x h h0 h1
      rcases b with ⟨bo, p⟩
      cases bo with
      | none =>
          have := (valid_elim (h (none, p) (List.mem_cons_self _ _))).2
          simp at this
      | some bg =>
          have hp := (valid_elim (h (some bg, p) (List.mem_cons_self _ _))).1
          have hrest : ∀ y ∈ rest, Valid y = true :=
            fun y hy => h y (List.mem_cons_of_mem _ hy)
          rcases lt_or_le t p with hsel | hsel
          · refine ⟨[], bg, p, rest, by simp, hp, by simpa [sumW_nil], by
              rw [sumW_nil]; linarith, ?_⟩
            have hloop := choicesLoop_ok env rest (t - p) (next bg env).1 hrest
            have hneg : t - p < 0 := sub_neg.mpr hsel
            simp only [choicesLoop, if_pos hp, hneg, and_self, if_true, hloop]
            rcases hng : (next bg env).2 with _ | ng <;> simp [hng]
          · have h0s : 0 ≤ t - p := by linarith
            have h1s : t - p < sumW rest := by
              rw [sumW_cons] at h1
              linarith
            rcases ih (t - p) x hrest h0s h1s with
              ⟨pre, bg2, w, post, hdecomp, hw, hle, hlt, hloop⟩
            refine ⟨(some bg, p) :: pre, bg2, w, post, by simp [hdecomp], hw, ?_, ?_, ?_⟩
            · rw [sumW_cons]
              linarith
            · rw [sumW_cons]
              linarith
            · have hcond : ¬ (t - p < 0) := not_lt.mpr h0s
              simp only [choicesLoop, if_pos hp, hcond, and_false, if_false, hloop]
              simp

/-- Claim C4: Choices selection on a Next call: with no eligible branch
(weight > 0 and non-nil generator) the call returns (StopIteration,
nil); otherwise, with the draw r = randF * S in [0, S) over the sum S of
eligible weights, the branch selected is exactly the first eligible
branch in original order whose cumulative weight strictly exceeds r; it
has positive weight, is advanced exactly once, is dropped permanently
from the collection when its continuation is nil, and is otherwise
replaced in place by its continuation keeping its weight. -/
theorem choices_next_spec (gs : List (Option Gen × ℚ)) (env : Env)
    (h0 : 0 ≤ env.randF) (h1 : env.randF < 1) :
    (gs.filter Valid = [] → next (.choices gs) env = (.stopIteration, none))
    ∧ (gs.filter Valid ≠ [] →
        ∃ pre bg w post,
          gs.filter Valid = pre ++ (some bg, w) :: post ∧
          0 < w ∧
          sumW pre ≤ env.randF * sumW (gs.filter Valid) ∧
          env.randF * sumW (gs.filter Valid) < sumW pre + w ∧
          next (.choices gs) env =
            ((next bg env).1,
             mkChoices (pre ++ (match (next bg env).2 with
               | none => []
               | some ng => [(some ng, w)]) ++ post))) := by
  constructor
  · intro hf
    simp [next, hf]
  · intro hf
    have hvalid : ∀ b ∈ gs.filter Valid, Valid b = true :=
      fun b hb => (List.mem_filter.mp hb).2
    have hs : 0 < sumW (gs.filter Valid) := sumW_pos _ hvalid hf
    have h0t : 0 ≤ env.randF * sumW (gs.filter Valid) :=
      mul_nonneg h0 (le_of_lt hs)
    have h1t : env.randF * sumW (gs.filter Valid) < sumW (gs.filter Valid) :=
      mul_lt_of_lt_one_left hs h1
    rcases choicesLoop_select env (gs.filter Valid)
        (env.randF * sumW (gs.filter Valid)) .nilv hvalid h0t h1t with
      ⟨pre, bg, w, post, hdecomp, hw, hle, hlt, hloop⟩
    refine ⟨pre, bg, w, post, hdecomp, hw, hle, hlt, ?_⟩
    have hne : (gs.filter Valid).isEmpty = false := by
      cases hg : gs.filter Valid with
      | nil => cases hf hg
      | cons b r => simp
    rw [← choicesLoop_filter env gs] at hloop
    simp only [next, hne, Bool.false_eq_true, if_false, hloop, mkChoices]
    rcases hng : (next bg env).2 with _ | ng
    · simp only [hng]
      split <;> simp_all
    · simp only [hng]
      split <;> simp_all

/-- Claim C4, witness: both conjuncts applied at concrete collections
under the zero draw of the quiet environment. -/
theorem choices_next_spec_witness :
    next (.choices [(none, 5), (some (.someV (.int 1)), 0)]) env0
      = (.stopIteration, none)
    ∧ (∃ pre bg w post,
        ([(some (.someV (.int 7)), 1), (none, 2)] : List (Option Gen × ℚ)).filter Valid
          = pre ++ (some bg, w) :: post ∧
        0 < w ∧
        sumW pre ≤ env0.randF *
          sumW (([(some (.someV (.int 7)), 1), (none, 2)] : List (Option Gen × ℚ)).filter Valid) ∧
        env0.randF *
          sumW (([(some (.someV (.int 7)), 1), (none, 2)] : List (Option Gen × ℚ)).filter Valid)
          < sumW pre + w ∧
        next (.choices [(some (.someV (.int 7)), 1), (none, 2)]) env0 =
          ((next bg env0).1,
           mkChoices (pre ++ (match (next bg env0).2 with
             | none => []
             | some ng => [(some ng, w)]) ++ post))) :=
  ⟨(choices_next_spec [(none, 5), (some (.someV (.int 1)), 0)] env0
      (by norm_num [env0]) (by norm_num [env0])).1
      (by norm_num [Valid, List.filter]),
   (choices_next_spec [(some (.someV (.int 7)), 1), (none, 2)] env0
      (by norm_num [env0]) (by norm_num [env0])).2
      (by norm_num [Valid, List.filter])⟩

end gen
